import Mathlib

/-!
Shallow embedding of the `expandenv` crate (src/lib.rs, src/errors.rs).

Modelling conventions:
- The model targets the non-Windows build: the `#[cfg(windows)]` separator
  rewrites are absent and `std::path::MAIN_SEPARATOR` is `/`.
- Inputs are taken to be ASCII text, so Rust byte indices coincide with
  character indices and the Unicode-aware `\w` of the `regex` crate coincides
  with `[0-9A-Za-z_]` (Lean's `Char.isAlphanum` is exactly ASCII).
- Environment access `std::env::var_os` is modelled as a pure lookup table
  `String → Option String`; `to_string_lossy` is the identity on valid text,
  and `var_os` never reports a read error, so the `OsVarError` variant is
  never produced (mirroring the code).
- `PathBuf` values are modelled by their underlying strings; Rust compares
  paths by their parsed components (`Path::components`), which is modelled by
  `pathComponents` below.
- The two regexes are fixed patterns, so their leftmost-first (backtracking)
  match semantics is compiled by hand into `matchAt` (the unanchored pattern
  of `expand`) and `anchoredCapture` (the `^...$` pattern of
  `expand_by_path_components`); each step of the functions is annotated with
  the piece of the pattern it implements.
- The recursive expansion functions take an explicit fuel argument that is
  decremented at every (mutually) recursive call, with a distinguished
  `OutOfFuel` result when it runs out.  The public entry points supply fuel
  `length + 3` (resp. `length + 5`), and the termination development (claim
  C9) proves the result is independent of the fuel above a linear bound and
  that `OutOfFuel` is never returned, which is exactly the termination of the
  Rust recursion.
-/

namespace Expandenv

/-- Error type of `errors.rs`.  `errors.rs` declares only `EnvvarReadError`
and `OsVarError`; `lib.rs` additionally references
`ExpandError::EmptyEnvvarCapture` (lines 135 and 221), a variant that does
not exist in `errors.rs` — that discrepancy is the subject of claim C7.  The
constructor is included here so the uses in `lib.rs` can be embedded.
`OutOfFuel` is an artifact of the fuel-based embedding and is proved
unreachable in the termination development. -/
inductive ExpandError where
  | EnvvarReadError (name : String)
  | OsVarError
  | EmptyEnvvarCapture
  | OutOfFuel
deriving DecidableEq, Repr

/-- Character class `[a-zA-Z_]` — the first character of capture group 1. -/
def isNameStart (c : Char) : Bool := c.isAlpha || c == '_'

/-- Character class `\w` (ASCII: `[0-9A-Za-z_]`) — the rest of group 1. -/
def isWordChar (c : Char) : Bool := c.isAlphanum || c == '_'

/-- After the leading `\$`, decide whether the greedy `\{?` consumes a brace:
it does exactly when a `\x7b` follows and group 1 `[a-zA-Z_]\w*` can start
after it (otherwise the engine backtracks to the zero-width alternative,
which then fails at the brace anyway). -/
def bracedAfterDollar (rest : List Char) : Bool :=
  match rest with
  | c1 :: c2 :: _ => c1 == '\x7b' && isNameStart c2
  | _ => false

/-- Leftmost-first match of the unanchored pattern
`\$\{?([a-zA-Z_]\w*)(:-(.*?))?\}?` of `expand` (lib.rs line 121) at the head
of `cs`.  Returns `(match length, group 1, group 3)`.

Because everything after the lazy `(.*?)` — just the nullable `\}?` — can
always match, the lazy group always captures the empty string, and the
optional `\}?` then consumes a closing brace only if one immediately
follows.  Similarly group 1 is the maximal word-character run: the
characters a shorter run would give back could only be matched by `:`, `\x7d`
or the end of the pattern, never by a word character. -/
def matchAt (cs : List Char) : Option (Nat × String × Option String) :=
  match cs with
  | [] => none
  | c :: rest =>
    -- `\$`
    if c == '$' then
      -- `\{?`
      let braced := bracedAfterDollar rest
      let braceLen := if braced then 1 else 0
      let body := if braced then rest.drop 1 else rest
      match body with
      | [] => none
      | c2 :: r =>
        -- group 1: `[a-zA-Z_]\w*`, greedy
        if isNameStart c2 then
          let tail := r.takeWhile isWordChar
          let name := String.mk (c2 :: tail)
          let t := r.dropWhile isWordChar
          -- `(:-(.*?))?`: greedy option, taken iff `:-` follows
          if t.head? == some ':' && (t.drop 1).head? == some '-' then
            let u := t.drop 2
            -- lazy `(.*?)` captures empty; `\}?` greedily takes one `\x7d`
            let closeLen := if u.head? == some '\x7d' then 1 else 0
            some (1 + braceLen + 1 + tail.length + 2 + closeLen, name, some "")
          else
            -- `\}?`
            let closeLen := if t.head? == some '\x7d' then 1 else 0
            some (1 + braceLen + 1 + tail.length + closeLen, name, none)
        else none
    else none

/-- Full match of the anchored pattern
`^\$\{?([a-zA-Z_]\w*)(:-(.*?))?\}?$` of `expand_by_path_components`
(lib.rs line 207) against the whole component.  Returns
`(group 1, group 3)`.

Under the end anchor the lazy `(.*?)` must grow: the shortest capture that
lets the tail `\}?$` match is everything after `:-` except a final closing
brace (consumed by the greedy `\}?`) when one is present.  `.` does not
match a newline, so a capture that would have to contain one fails the whole
match. -/
def anchoredCapture (cs : List Char) : Option (String × Option String) :=
  match cs with
  | [] => none
  | c :: rest =>
    -- `^\$`
    if c == '$' then
      -- `\{?`
      let braced := bracedAfterDollar rest
      let body := if braced then rest.drop 1 else rest
      match body with
      | [] => none
      | c2 :: r =>
        -- group 1: `[a-zA-Z_]\w*`, greedy
        if isNameStart c2 then
          let name := String.mk (c2 :: r.takeWhile isWordChar)
          let t := r.dropWhile isWordChar
          if t.head? == some ':' && (t.drop 1).head? == some '-' then
            let u := t.drop 2
            -- lazy `(.*?)` up to the `\}?$` tail
            let p := if u.getLast? == some '\x7d' then u.dropLast else u
            if p.contains '\n' then none else some (name, some (String.mk p))
          else if t = [] then some (name, none)
          else if t = ['\x7d'] then some (name, none)
          else none
        else none
    else none

/-- Inner loop of `__parse_path_components_with_braces` (lib.rs lines 87-104):
one pass over the characters, splitting on `/` only at brace depth 0.  The
state is the `u8` brace depth (saturating arithmetic), the `comp_is_envvar`
flag and the current component accumulated in reverse. -/
def parseGo : List Char → Nat → Bool → List Char → List String
  | [], _, _, comp => [String.mk comp.reverse]
  | c :: rest, depth, isEnv, comp =>
    if c == '/' && depth == 0 then
      String.mk comp.reverse :: parseGo rest depth false []
    else
      let isEnv2 := isEnv || c == '$'
      let depth2 :=
        if c == '\x7b' && isEnv then min (depth + 1) 255
        else if c == '\x7d' && isEnv then depth - 1
        else depth
      parseGo rest depth2 isEnv2 (c :: comp)

/-- `__parse_path_components_with_braces` (lib.rs lines 73-109): if the path
starts with the separator, it becomes a component of its own. -/
def __parse_path_components_with_braces (s : String) : List String :=
  match s.data with
  | [] => parseGo [] 0 false []
  | c :: rest =>
    if c == '/' then "/" :: parseGo rest 0 false []
    else parseGo (c :: rest) 0 false []

/-- Split a character list on `/`, keeping empty pieces (helper for
`pathComponents`). -/
def splitSlash : List Char → List String
  | [] => [""]
  | c :: rest =>
    if c == '/' then "" :: splitSlash rest
    else
      match splitSlash rest with
      | [] => [String.mk [c]]
      | p :: ps => String.mk (c :: p.data) :: ps

/-- Model of Rust `Path::components` on Unix, rendered as strings: a leading
separator yields a root component `/`; empty pieces (repeated separators)
are dropped; `.` pieces are dropped except for a leading one.  Rust compares
`PathBuf` values by this component sequence. -/
def pathComponents (s : String) : List String :=
  let raw := splitSlash s.data
  let parts := raw.filter fun p => p != "" && p != "."
  if s.data.head? = some '/' then "/" :: parts
  else if raw.head? = some "." then "." :: parts
  else parts

/-- Replace `s[start..stop]` by `v` — Rust `String::replace_range` (byte
indices coincide with character indices on ASCII input). -/
def replaceRange (s : String) (start stop : Nat) (v : String) : String :=
  String.mk (s.data.take start ++ v.data ++ s.data.drop stop)

mutual

/-- Loop body of `expand` (lib.rs lines 130-170): `captures_iter` walks the
original string `s` left to right (`cs` is the unscanned suffix, `pos` its
start index in `s`), while replacements are performed in `expanded` at
offset-adjusted positions (`saturating_add_signed` is `Int.toNat` of the
sum).  On a match: group 1 must be non-empty (`ok_or(EmptyEnvvarCapture)` —
dead, since group 1 always captures at least one character); a set variable
is used verbatim; otherwise a captured group 3 is recursively expanded;
otherwise `EnvvarReadError`. -/
def expandGoF (env : String → Option String) :
    Nat → List Char → Nat → String → Int → Except ExpandError String
  | 0, _, _, _, _ => .error .OutOfFuel
  | fuel + 1, cs, pos, expanded, offset =>
    match cs with
    | [] => .ok expanded
    | _ :: rest =>
      match matchAt cs with
      | none => expandGoF env fuel rest (pos + 1) expanded offset
      | some (len, name, fb) =>
        if name = "" then .error .EmptyEnvvarCapture
        else
          match
            (match env name with
             | some v => .ok v
             | none =>
               match fb with
               | some f => expandF env fuel f
               | none => .error (.EnvvarReadError name) :
              Except ExpandError String) with
          | .error e => .error e
          | .ok value =>
            let start := ((pos : Int) + offset).toNat
            let stop := (((pos + len : Nat) : Int) + offset).toNat
            let expanded2 := replaceRange expanded start stop value
            let offset2 :=
              offset + ((expanded2.data.length : Int) - (expanded.data.length : Int))
            expandGoF env fuel (cs.drop len) (pos + len) expanded2 offset2

/-- `expand` (lib.rs lines 111-173) with explicit fuel: scan starts at the
beginning of `s`, with `expanded` initialized to a copy of `s` and a zero
offset. -/
def expandF (env : String → Option String) : Nat → String → Except ExpandError String
  | 0, _ => .error .OutOfFuel
  | fuel + 1, s => expandGoF env fuel s.data 0 s 0

end

/-- Public entry point `expand` (the spec's `expand_string`), with fuel large
enough for the scan (see the termination development, claim C9). -/
def expand (env : String → Option String) (s : String) : Except ExpandError String :=
  expandF env (s.data.length + 3) s

/-- Tilde step of `expand_by_path_components` (lib.rs lines 251-259): if the
front of the fully resolved component sequence is exactly `~`, it is
replaced by the home directory's own path components, in order. -/
def applyTilde (home : String) (comps : List String) : List String :=
  match comps with
  | [] => []
  | front :: rest =>
    if front = "~" then pathComponents home ++ rest else front :: rest

mutual

/-- Loop of `expand_by_path_components` (lib.rs lines 216-246): each raw
component is either an anchored-regex match — resolved like in `expand`,
except that an unset variable's captured fallback is recursively expanded by
`expand_by_path_components` — or a literal; the resolved text is decomposed
into its own path components and spliced into the output sequence. -/
def expandCompsF (env : String → Option String) (home : String) :
    Nat → List String → Except ExpandError (List String)
  | 0, _ => .error .OutOfFuel
  | _ + 1, [] => .ok []
  | fuel + 1, comp :: rest =>
    match
      (match anchoredCapture comp.data with
       | some (name, fb) =>
         if name = "" then .error .EmptyEnvvarCapture
         else
           match env name with
           | some v => .ok v
           | none =>
             match fb with
             | some f => expandPathF env home fuel f
             | none => .error (.EnvvarReadError name)
       | none => .ok comp :
        Except ExpandError String) with
    | .error e => .error e
    | .ok path =>
      match expandCompsF env home fuel rest with
      | .error e => .error e
      | .ok tailComps => .ok (pathComponents path ++ tailComps)

/-- `expand_by_path_components` (lib.rs lines 197-268) with explicit fuel:
parse the components respecting braces, resolve them, apply the tilde rule
to the front of the result, and rejoin with the separator (the code joins
explicitly instead of using `PathBuf::from_iter`). -/
def expandPathF (env : String → Option String) (home : String) :
    Nat → String → Except ExpandError String
  | 0, _ => .error .OutOfFuel
  | fuel + 1, s =>
    match expandCompsF env home fuel (__parse_path_components_with_braces s) with
    | .error e => .error e
    | .ok comps => .ok (String.intercalate "/" (applyTilde home comps))

end

/-- Public entry point `expand_by_path_components` (the spec's
`expand_path`), with fuel large enough for the recursion (claim C9).  The
home directory (`BASE_DIRS.home_dir()`) is passed as a parameter. -/
def expand_by_path_components (env : String → Option String) (home : String)
    (s : String) : Except ExpandError String :=
  expandPathF env home (s.data.length + 5) s

/-- The empty environment. -/
def env0 : String → Option String := fun _ => none

/-- Environment with only `FOO=bar` (the spec's round-trip scenario). -/
def envFoo : String → Option String := fun n => if n = "FOO" then some "bar" else none

/-- Environment with only `SET=val` (claim C2's nested-fallback scenario). -/
def envSet : String → Option String := fun n => if n = "SET" then some "val" else none

/-- A concrete home directory for the path-mode scenarios. -/
def home0 : String := "/home/user"

/-- The identifier grammar `[A-Za-z_][A-Za-z0-9_]*` of variable names. -/
def validIdent (s : String) : Bool :=
  match s.data with
  | [] => false
  | c :: t => isNameStart c && t.all isWordChar

/-- Total size of a component list: character count plus component count
(the termination measure of the path-mode recursion). -/
def compsMeasure (l : List String) : Nat :=
  (l.map fun c => c.data.length).sum + l.length

end Expandenv

namespace Expandenv

/-! Basic helper lemmas. -/

theorem data_append (a b : String) : (a ++ b).data = a.data ++ b.data := rfl

theorem mk_data (s : String) : String.mk s.data = s := rfl

theorem data_mk (l : List Char) : (String.mk l).data = l := rfl

theorem ne_empty_of_data_cons {s : String} {c : Char} {t : List Char}
    (h : s.data = c :: t) : s ≠ "" := by
  intro he
  rw [he] at h
  exact List.noConfusion h

theorem takeWhile_append_all {p : Char → Bool} :
    ∀ (l r : List Char), (∀ x ∈ l, p x = true) →
      List.takeWhile p (l ++ r) = l ++ List.takeWhile p r := by
  intro l r h
  induction l with
  | nil => simp
  | cons a l ih =>
    have ha : p a = true := h a (by simp)
    simp only [List.cons_append, List.takeWhile_cons, ha, if_true]
    rw [ih (fun x hx => h x (by simp [hx]))]

theorem dropWhile_append_all {p : Char → Bool} :
    ∀ (l r : List Char), (∀ x ∈ l, p x = true) →
      List.dropWhile p (l ++ r) = List.dropWhile p r := by
  intro l r h
  induction l with
  | nil => simp
  | cons a l ih =>
    have ha : p a = true := h a (by simp)
    simp only [List.cons_append, List.dropWhile_cons, ha, if_true]
    exact ih (fun x hx => h x (by simp [hx]))

theorem takeWhile_all {p : Char → Bool} (l : List Char)
    (h : ∀ x ∈ l, p x = true) : List.takeWhile p l = l := by
  have := takeWhile_append_all (p := p) l [] h
  simpa using this

theorem dropWhile_all {p : Char → Bool} (l : List Char)
    (h : ∀ x ∈ l, p x = true) : List.dropWhile p l = [] := by
  have := dropWhile_append_all (p := p) l [] h
  simpa using this

theorem isNameStart_ne_brace {c : Char} (h : isNameStart c = true) : c ≠ '\x7b' := by
  intro he
  rw [he] at h
  exact absurd h (by decide)

theorem bracedAfterDollar_of_nameStart {c : Char} (t : List Char)
    (h : isNameStart c = true) : bracedAfterDollar (c :: t) = false := by
  cases t with
  | nil => rfl
  | cons b t' =>
    have : (c == '\x7b') = false := by
      simp [isNameStart_ne_brace h]
    simp [bracedAfterDollar, this]

/-! Characterizations of `matchAt`. -/

theorem validIdent_parts {name : String} (h : validIdent name = true) :
    ∃ c t, name.data = c :: t ∧ isNameStart c = true ∧ ∀ x ∈ t, isWordChar x = true := by
  unfold validIdent at h
  rcases hd : name.data with _ | ⟨c, t⟩
  · rw [hd] at h; exact absurd h (by simp)
  · rw [hd] at h
    simp only [Bool.and_eq_true, List.all_eq_true] at h
    exact ⟨c, t, rfl, h.1, h.2⟩

theorem matchAt_ident {name : String} (h : validIdent name = true) :
    matchAt ('$' :: name.data) = some (name.data.length + 1, name, none) := by
  obtain ⟨c, t, hd, hc, ht⟩ := validIdent_parts h
  rw [hd]
  have hbr : bracedAfterDollar (c :: t) = false := bracedAfterDollar_of_nameStart t hc
  have htake : List.takeWhile isWordChar t = t := takeWhile_all t ht
  have hdrop : List.dropWhile isWordChar t = [] := dropWhile_all t ht
  simp only [matchAt, beq_self_eq_true, if_true, hbr, if_false, Bool.false_eq_true,
    hc, htake, hdrop]
  have hname : String.mk (c :: t) = name := by rw [← hd]
  simp [hname, hd]
  try omega

theorem matchAt_braced_ident {name : String} (h : validIdent name = true) :
    matchAt ('$' :: '\x7b' :: (name.data ++ ['\x7d'])) =
      some (name.data.length + 3, name, none) := by
  obtain ⟨c, t, hd, hc, ht⟩ := validIdent_parts h
  rw [hd]
  have hbr : bracedAfterDollar ('\x7b' :: (c :: t) ++ ['\x7d']) = true := by
    simp [bracedAfterDollar, hc]
  have hwb : isWordChar '\x7d' = false := by decide
  have htake : List.takeWhile isWordChar (t ++ ['\x7d']) = t := by
    rw [takeWhile_append_all t ['\x7d'] ht]
    simp [List.takeWhile_cons, hwb]
  have hdrop : List.dropWhile isWordChar (t ++ ['\x7d']) = ['\x7d'] := by
    rw [dropWhile_append_all t ['\x7d'] ht]
    simp [List.dropWhile_cons, hwb]
  simp only [matchAt, beq_self_eq_true, if_true, List.cons_append] at hbr ⊢
  simp only [hbr, if_true, List.drop_succ_cons, List.drop_zero, hc, htake, hdrop]
  have hname : String.mk (c :: t) = name := by rw [← hd]
  simp [hname, hd]
  try omega

theorem matchAt_nil : matchAt [] = none := rfl

theorem matchAt_not_dollar {c : Char} (rest : List Char) (h : c ≠ '$') :
    matchAt (c :: rest) = none := by
  simp [matchAt, h]


theorem matchAt_bounds {cs : List Char} {len : Nat} {name : String} {fb : Option String}
    (h : matchAt cs = some (len, name, fb)) :
    1 ≤ len ∧ 2 ≤ cs.length ∧ ∀ f, fb = some f → f = "" := by
  cases cs with
  | nil => exact absurd h (by simp [matchAt])
  | cons c rest =>
    by_cases hc : c = '$'
    case neg => rw [matchAt_not_dollar rest hc] at h; exact absurd h (by simp)
    case pos =>
      subst hc
      by_cases hbr : bracedAfterDollar rest = true
      · simp only [matchAt, beq_self_eq_true, if_true, hbr] at h
        rcases hbody : rest.drop 1 with _ | ⟨c2, r⟩ <;> rw [hbody] at h
        · exact absurd h (by simp)
        · have hlen : rest.length = r.length + 2 := by
            have := congrArg List.length hbody
            simp [List.length_drop] at this
            omega
          by_cases hns : isNameStart c2 = true
          · simp only [hns, if_true] at h
            by_cases hcol :
                (List.head? (List.dropWhile isWordChar r) == some ':' &&
                  (List.head? (List.drop 1 (List.dropWhile isWordChar r)) == some '-')) = true
            · simp only [hcol, if_true, Option.some.injEq, Prod.mk.injEq] at h
              refine ⟨by omega, by simp [hlen], ?_⟩
              intro f hf
              rw [← h.2.2] at hf
              exact (Option.some.inj hf).symm
            · simp only [Bool.not_eq_true] at hcol
              simp only [hcol, Bool.false_eq_true, if_false, Option.some.injEq,
                Prod.mk.injEq] at h
              refine ⟨by omega, by simp [hlen], ?_⟩
              intro f hf
              rw [← h.2.2] at hf
              exact absurd hf (by simp)
          · simp only [Bool.not_eq_true] at hns
            simp [hns] at h
      · simp only [Bool.not_eq_true] at hbr
        simp only [matchAt, beq_self_eq_true, if_true, hbr, Bool.false_eq_true,
          if_false] at h
        rcases hbody : rest with _ | ⟨c2, r⟩ <;> rw [hbody] at h
        · exact absurd h (by simp)
        · by_cases hns : isNameStart c2 = true
          · simp only [hns, if_true] at h
            by_cases hcol :
                (List.head? (List.dropWhile isWordChar r) == some ':' &&
                  (List.head? (List.drop 1 (List.dropWhile isWordChar r)) == some '-')) = true
            · simp only [hcol, if_true, Option.some.injEq, Prod.mk.injEq] at h
              refine ⟨by omega, by simp [hbody], ?_⟩
              intro f hf
              rw [← h.2.2] at hf
              exact (Option.some.inj hf).symm
            · simp only [Bool.not_eq_true] at hcol
              simp only [hcol, Bool.false_eq_true, if_false, Option.some.injEq,
                Prod.mk.injEq] at h
              refine ⟨by omega, by simp [hbody], ?_⟩
              intro f hf
              rw [← h.2.2] at hf
              exact absurd hf (by simp)
          · simp only [Bool.not_eq_true] at hns
            simp [hns] at h

/-! Fuel discipline of `expand`: above the linear bound the result does not
depend on the fuel, and the out-of-fuel artifact never occurs. -/

theorem expandF_empty (env : String → Option String) {k : Nat} (h : 2 ≤ k) :
    expandF env k "" = .ok "" := by
  obtain ⟨a, rfl⟩ : ∃ a, k = a + 2 := ⟨k - 2, by omega⟩
  rfl

theorem expandGoF_fuel {n : Nat} :
    ∀ {cs : List Char}, cs.length < n → ∀ {f1 f2 : Nat},
      cs.length + 1 ≤ f1 → cs.length + 1 ≤ f2 →
      ∀ (pos : Nat) (ex : String) (off : Int) (env : String → Option String),
        expandGoF env f1 cs pos ex off = expandGoF env f2 cs pos ex off := by
  induction n with
  | zero => intro cs h; omega
  | succ n ih =>
    intro cs hn f1 f2 h1 h2 pos ex off env
    obtain ⟨a, rfl⟩ : ∃ a, f1 = a + 1 := ⟨f1 - 1, by omega⟩
    obtain ⟨b, rfl⟩ : ∃ b, f2 = b + 1 := ⟨f2 - 1, by omega⟩
    cases cs with
    | nil => rfl
    | cons c rest =>
      simp only [expandGoF]
      cases hm : matchAt (c :: rest) with
      | none =>
        have hcl : (c :: rest).length = rest.length + 1 := rfl
        exact ih (by omega) (by omega) (by omega) (pos + 1) ex off env
      | some lnf =>
        obtain ⟨len, name, fb⟩ := lnf
        obtain ⟨hlen1, hlen2, hfb⟩ := matchAt_bounds hm
        by_cases hne : name = ""
        · simp [hne]
        · simp only [hne, if_false, reduceIte]
          have hcl : (c :: rest).length = rest.length + 1 := rfl
          have hdl : ((c :: rest).drop len).length = (c :: rest).length - len :=
            List.length_drop len (c :: rest)
          have htail :
              expandGoF env a ((c :: rest).drop len) = expandGoF env b ((c :: rest).drop len) := by
            funext p e o
            exact ih (by omega) (by omega) (by omega) p e o env
          cases henv : env name with
          | some v => simp only [henv, htail]
          | none =>
            cases hfbv : fb with
            | none => simp [henv, hfbv]
            | some f =>
              have hf : f = "" := hfb f hfbv
              subst hf
              have ha2 : 2 ≤ a := by omega
              have hb2 : 2 ≤ b := by omega
              simp only [henv, hfbv, expandF_empty env ha2, expandF_empty env hb2, htail]

theorem expandGoF_not_outOfFuel {n : Nat} :
    ∀ {cs : List Char}, cs.length < n → ∀ {f : Nat}, cs.length + 1 ≤ f →
      ∀ (pos : Nat) (ex : String) (off : Int) (env : String → Option String),
        expandGoF env f cs pos ex off ≠ .error .OutOfFuel := by
  induction n with
  | zero => intro cs h; omega
  | succ n ih =>
    intro cs hn f h1 pos ex off env
    obtain ⟨a, rfl⟩ : ∃ a, f = a + 1 := ⟨f - 1, by omega⟩
    cases cs with
    | nil => simp [expandGoF]
    | cons c rest =>
      simp only [expandGoF]
      cases hm : matchAt (c :: rest) with
      | none =>
        have hcl : (c :: rest).length = rest.length + 1 := rfl
        exact ih (by omega) (by omega) (pos + 1) ex off env
      | some lnf =>
        obtain ⟨len, name, fb⟩ := lnf
        obtain ⟨hlen1, hlen2, hfb⟩ := matchAt_bounds hm
        by_cases hne : name = ""
        · simp [hne]
        · simp only [hne, if_false, reduceIte]
          have hcl : (c :: rest).length = rest.length + 1 := rfl
          have hdl : ((c :: rest).drop len).length = (c :: rest).length - len :=
            List.length_drop len (c :: rest)
          have htail :
              ∀ p e o, expandGoF env a ((c :: rest).drop len) p e o ≠ .error .OutOfFuel := by
            intro p e o
            exact ih (by omega) (by omega) p e o env
          cases henv : env name with
          | some v => simp only [henv]; exact htail _ _ _
          | none =>
            cases hfbv : fb with
            | none => simp [henv, hfbv]
            | some f =>
              have hf : f = "" := hfb f hfbv
              subst hf
              have ha2 : 2 ≤ a := by omega
              simp only [henv, hfbv, expandF_empty env ha2]
              exact htail _ _ _

theorem expandF_fuel (env : String → Option String) (s : String) {f : Nat}
    (h : s.data.length + 2 ≤ f) : expandF env f s = expand env s := by
  obtain ⟨a, rfl⟩ : ∃ a, f = a + 1 := ⟨f - 1, by omega⟩
  show expandGoF env a s.data 0 s 0 = expandF env (s.data.length + 3) s
  show expandGoF env a s.data 0 s 0 = expandGoF env (s.data.length + 2) s.data 0 s 0
  exact expandGoF_fuel (n := s.data.length + 1) (by omega) (by omega) (by omega) 0 s 0 env

theorem expand_not_outOfFuel (env : String → Option String) (s : String) :
    expand env s ≠ .error .OutOfFuel := by
  show expandGoF env (s.data.length + 2) s.data 0 s 0 ≠ .error .OutOfFuel
  exact expandGoF_not_outOfFuel (n := s.data.length + 1) (by omega) (by omega) 0 s 0 env

/-! Evaluation of `expand` on a string that is a single placeholder. -/

theorem expandGoF_full_hit (env : String → Option String) {cs : List Char}
    {len : Nat} {name v : String} {fb : Option String} (fuel : Nat)
    (hm : matchAt cs = some (len, name, fb)) (hlen : len = cs.length)
    (hne : name ≠ "") (hv : env name = some v) (s : String) (hs : s.data = cs)
    (hfuel : 1 ≤ fuel) :
    expandGoF env (fuel + 1) cs 0 s 0 = .ok v := by
  obtain ⟨-, hcs2, -⟩ := matchAt_bounds hm
  cases cs with
  | nil => simp at hcs2
  | cons c rest =>
    simp only [expandGoF, hm, hne, if_false, reduceIte, hv]
    have hstart : ((0 : Nat) + (0 : Int)).toNat = 0 := by simp
    have hstop : (((0 + len : Nat) : Int) + 0).toNat = len := by simp
    have hrep : replaceRange s 0 len v = v := by
      unfold replaceRange
      rw [hs, hlen]
      simp [List.drop_length]
    rw [hstart, hstop, hrep]
    have hdrop : (c :: rest).drop len = [] := by
      rw [hlen]
      exact List.drop_length (c :: rest)
    rw [hdrop]
    obtain ⟨b, rfl⟩ : ∃ b, fuel = b + 1 := ⟨fuel - 1, by omega⟩
    rfl

theorem expandGoF_full_miss (env : String → Option String) {cs : List Char}
    {len : Nat} {name : String} (fuel : Nat)
    (hm : matchAt cs = some (len, name, none)) (hne : name ≠ "")
    (hv : env name = none) (pos : Nat) (ex : String) (off : Int) :
    expandGoF env (fuel + 1) cs pos ex off = .error (.EnvvarReadError name) := by
  obtain ⟨-, hcs2, -⟩ := matchAt_bounds hm
  cases cs with
  | nil => simp at hcs2
  | cons c rest => simp [expandGoF, hm, hne, hv]

theorem data_dollar_name (name : String) : ("$" ++ name).data = '$' :: name.data := rfl

theorem data_braced_name (name : String) :
    ("$\x7b" ++ name ++ "\x7d").data = '$' :: '\x7b' :: (name.data ++ ['\x7d']) := by
  show ("$\x7b".data ++ name.data) ++ "\x7d".data = _
  simp

theorem expand_dollar_of_set {env : String → Option String} {name v : String}
    (hid : validIdent name = true) (hv : env name = some v) :
    expand env ("$" ++ name) = .ok v := by
  have hne : name ≠ "" := by
    obtain ⟨c, t, hd, -, -⟩ := validIdent_parts hid
    exact ne_empty_of_data_cons hd
  have hm := matchAt_ident hid
  have hdata := data_dollar_name name
  show expandF env (("$" ++ name).data.length + 3) ("$" ++ name) = .ok v
  rw [hdata]
  show expandGoF env (name.data.length + 1 + 2) ('$' :: name.data) 0 ("$" ++ name) 0 = .ok v
  exact expandGoF_full_hit env (name.data.length + 1 + 1) hm (by simp) hne hv
    ("$" ++ name) hdata (by omega)

theorem expand_braced_of_set {env : String → Option String} {name v : String}
    (hid : validIdent name = true) (hv : env name = some v) :
    expand env ("$\x7b" ++ name ++ "\x7d") = .ok v := by
  have hne : name ≠ "" := by
    obtain ⟨c, t, hd, -, -⟩ := validIdent_parts hid
    exact ne_empty_of_data_cons hd
  have hm := matchAt_braced_ident hid
  have hdata := data_braced_name name
  show expandF env (("$\x7b" ++ name ++ "\x7d").data.length + 3)
    ("$\x7b" ++ name ++ "\x7d") = .ok v
  rw [hdata]
  show expandGoF env (('$' :: '\x7b' :: (name.data ++ ['\x7d'])).length + 2)
    ('$' :: '\x7b' :: (name.data ++ ['\x7d'])) 0 ("$\x7b" ++ name ++ "\x7d") 0 = .ok v
  have hl : ('$' :: '\x7b' :: (name.data ++ ['\x7d'])).length = name.data.length + 3 := by
    simp
  rw [hl]
  exact expandGoF_full_hit env (name.data.length + 4) hm (by simp) hne hv
    ("$\x7b" ++ name ++ "\x7d") hdata (by omega)

theorem expand_dollar_of_unset {env : String → Option String} {name : String}
    (hid : validIdent name = true) (hv : env name = none) :
    expand env ("$" ++ name) = .error (.EnvvarReadError name) := by
  have hne : name ≠ "" := by
    obtain ⟨c, t, hd, -, -⟩ := validIdent_parts hid
    exact ne_empty_of_data_cons hd
  have hm := matchAt_ident hid
  show expandF env (("$" ++ name).data.length + 3) ("$" ++ name) =
    .error (.EnvvarReadError name)
  rw [data_dollar_name name]
  show expandGoF env (name.data.length + 1 + 2) ('$' :: name.data) 0 ("$" ++ name) 0 =
    .error (.EnvvarReadError name)
  exact expandGoF_full_miss env (name.data.length + 1 + 1) hm hne hv 0 ("$" ++ name) 0

/-! Behaviour of `expand` on dollar-free input (claim C4). -/

theorem expandGoF_no_dollar :
    ∀ (cs : List Char) {fuel : Nat}, cs.length + 1 ≤ fuel → (∀ c ∈ cs, c ≠ '$') →
      ∀ (pos : Nat) (ex : String) (off : Int) (env : String → Option String),
        expandGoF env fuel cs pos ex off = .ok ex := by
  intro cs
  induction cs with
  | nil =>
    intro fuel hf _ pos ex off env
    obtain ⟨a, rfl⟩ : ∃ a, fuel = a + 1 := ⟨fuel - 1, by omega⟩
    rfl
  | cons c rest ih =>
    intro fuel hf h pos ex off env
    obtain ⟨a, rfl⟩ : ∃ a, fuel = a + 1 := ⟨fuel - 1, by omega⟩
    have hm : matchAt (c :: rest) = none := matchAt_not_dollar rest (h c (by simp))
    have hcl : (c :: rest).length = rest.length + 1 := rfl
    simp only [expandGoF, hm]
    exact ih (by omega) (fun x hx => h x (by simp [hx])) (pos + 1) ex off env

theorem expand_no_dollar (env : String → Option String) (s : String)
    (h : ∀ c ∈ s.data, c ≠ '$') : expand env s = .ok s := by
  show expandGoF env (s.data.length + 2) s.data 0 s 0 = .ok s
  exact expandGoF_no_dollar s.data (by omega) h 0 s 0 env

/-! Size bounds for the path-mode parse and captures (termination measure). -/

theorem parseGo_measure :
    ∀ (cs : List Char) (depth : Nat) (isEnv : Bool) (comp : List Char),
      compsMeasure (parseGo cs depth isEnv comp) ≤ cs.length + comp.length + 1 := by
  intro cs
  induction cs with
  | nil =>
    intro depth isEnv comp
    simp [parseGo, compsMeasure]
  | cons c rest ih =>
    intro depth isEnv comp
    by_cases hsp : (c == '/' && depth == 0) = true
    · simp only [parseGo, hsp, if_true]
      have := ih depth false []
      simp only [compsMeasure, List.map_cons, List.sum_cons, List.length_cons,
        List.length_nil, data_mk, List.length_reverse] at this ⊢
      omega
    · simp only [Bool.not_eq_true] at hsp
      simp only [parseGo, hsp, Bool.false_eq_true, if_false]
      have := ih (if c == '\x7b' && isEnv then min (depth + 1) 255
        else if c == '\x7d' && isEnv then depth - 1 else depth) (isEnv || c == '$') (c :: comp)
      simp only [List.length_cons] at *
      omega

theorem parse_eq_nil (s : String) (h : s.data = []) :
    __parse_path_components_with_braces s = parseGo [] 0 false [] := by
  unfold __parse_path_components_with_braces
  rw [h]

theorem parse_eq_cons (s : String) (c : Char) (rest : List Char) (h : s.data = c :: rest) :
    __parse_path_components_with_braces s =
      if (c == '/') = true then "/" :: parseGo rest 0 false []
      else parseGo (c :: rest) 0 false [] := by
  unfold __parse_path_components_with_braces
  rw [h]

theorem parse_measure (s : String) :
    compsMeasure (__parse_path_components_with_braces s) ≤ s.data.length + 2 := by
  rcases hd : s.data with _ | ⟨c, rest⟩
  · rw [parse_eq_nil s hd]
    have := parseGo_measure [] 0 false []
    simp only [List.length_nil] at this ⊢
    omega
  · rw [parse_eq_cons s c rest hd]
    by_cases hc : (c == '/') = true
    · rw [if_pos hc]
      have := parseGo_measure rest 0 false []
      have hsl : ("/" : String).data.length = 1 := rfl
      simp only [compsMeasure, List.map_cons, List.sum_cons, List.length_cons,
        List.length_nil, hsl] at this ⊢
      omega
    · rw [if_neg hc]
      have := parseGo_measure (c :: rest) 0 false []
      simp only [List.length_cons, List.length_nil] at this ⊢
      omega

theorem length_dropWhile_le (p : Char → Bool) :
    ∀ (l : List Char), (List.dropWhile p l).length ≤ l.length := by
  intro l
  induction l with
  | nil => simp
  | cons c rest ih =>
    by_cases hc : p c = true
    · simp only [List.dropWhile_cons, hc, if_true]
      simp only [List.length_cons]
      omega
    · simp only [Bool.not_eq_true] at hc
      simp [List.dropWhile_cons, hc]

theorem anchoredCapture_fallback_size {cs : List Char} {name f : String}
    (h : anchoredCapture cs = some (name, some f)) :
    f.data.length + 4 ≤ cs.length := by
  rcases hd : cs with _ | ⟨c0, rest⟩ <;> rw [hd] at h
  · simp [anchoredCapture] at h
  · simp only [anchoredCapture] at h
    by_cases hc0 : (c0 == '$') = true
    · rw [if_pos hc0] at h
      rcases hbody : (if bracedAfterDollar rest then rest.drop 1 else rest) with _ | ⟨c2, r⟩ <;>
        rw [hbody] at h
      · exact absurd h (by simp)
      · have hrest : r.length + 1 ≤ rest.length := by
          by_cases hbr : bracedAfterDollar rest = true
          · rw [if_pos hbr] at hbody
            have := congrArg List.length hbody
            simp [List.length_drop] at this
            omega
          · simp only [Bool.not_eq_true] at hbr
            rw [hbr] at hbody
            simp only [Bool.false_eq_true, if_false] at hbody
            rw [hbody]
            simp
        by_cases hns : isNameStart c2 = true
        · simp only [hns, if_true] at h
          by_cases hcol :
              ((List.dropWhile isWordChar r).head? == some ':' &&
                ((List.drop 1 (List.dropWhile isWordChar r)).head? == some '-')) = true
          · simp only [hcol, if_true] at h
            by_cases hnl :
                (if (List.drop 2 (List.dropWhile isWordChar r)).getLast? == some '\x7d' then
                    (List.drop 2 (List.dropWhile isWordChar r)).dropLast
                  else List.drop 2 (List.dropWhile isWordChar r)).contains '\n' = true
            · rw [if_pos hnl] at h
              exact absurd h (by simp)
            · simp only [Bool.not_eq_true] at hnl
              rw [hnl] at h
              simp only [Bool.false_eq_true, if_false, Option.some.injEq, Prod.mk.injEq] at h
              have hcolh : (List.dropWhile isWordChar r).head? = some ':' := by
                simp only [Bool.and_eq_true, beq_iff_eq] at hcol
                exact hcol.1
              have hcolh2 : (List.drop 1 (List.dropWhile isWordChar r)).head? = some '-' := by
                simp only [Bool.and_eq_true, beq_iff_eq] at hcol
                exact hcol.2
              have ht1 : 1 ≤ (List.dropWhile isWordChar r).length := by
                cases hw : List.dropWhile isWordChar r
                · rw [hw] at hcolh; simp at hcolh
                · simp
              have ht2 : 2 ≤ (List.dropWhile isWordChar r).length := by
                rcases hw : List.drop 1 (List.dropWhile isWordChar r) with _ | ⟨x, xs⟩
                · rw [hw] at hcolh2; simp at hcolh2
                · have := congrArg List.length hw
                  simp [List.length_drop] at this
                  omega
              have hu : (List.drop 2 (List.dropWhile isWordChar r)).length =
                  (List.dropWhile isWordChar r).length - 2 :=
                List.length_drop 2 (List.dropWhile isWordChar r)
              have hdw : (List.dropWhile isWordChar r).length ≤ r.length :=
                length_dropWhile_le isWordChar r
              have hf : f.data.length ≤ (List.drop 2 (List.dropWhile isWordChar r)).length := by
                rw [← h.2]
                by_cases hgl :
                    ((List.drop 2 (List.dropWhile isWordChar r)).getLast? == some '\x7d') = true
                · rw [if_pos hgl]
                  simp only [data_mk]
                  have := List.length_dropLast (List.drop 2 (List.dropWhile isWordChar r))
                  omega
                · simp only [Bool.not_eq_true] at hgl
                  rw [hgl]
                  simp
              simp only [List.length_cons]
              omega
          · simp only [Bool.not_eq_true] at hcol
            rw [hcol] at h
            simp only [Bool.false_eq_true, if_false] at h
            by_cases hte : List.dropWhile isWordChar r = []
            · rw [if_pos hte] at h
              exact absurd h (by simp)
            · rw [if_neg hte] at h
              by_cases htb : List.dropWhile isWordChar r = ['\x7d']
              · rw [if_pos htb] at h
                exact absurd h (by simp)
              · rw [if_neg htb] at h
                exact absurd h (by simp)
        · simp only [Bool.not_eq_true] at hns
          simp [hns] at h
    · rw [if_neg hc0] at h
      exact absurd h (by simp)

theorem compsMeasure_nil : compsMeasure [] = 0 := rfl

theorem compsMeasure_cons (c : String) (l : List String) :
    compsMeasure (c :: l) = c.data.length + compsMeasure l + 1 := by
  simp only [compsMeasure, List.map_cons, List.sum_cons, List.length_cons]
  omega

/-! Fuel discipline of `expand_by_path_components`. -/

theorem pathF_fuel_all : ∀ N : Nat,
    (∀ (env : String → Option String) (home s : String) {f1 f2 : Nat},
      s.data.length + 4 ≤ N → s.data.length + 4 ≤ f1 → s.data.length + 4 ≤ f2 →
      expandPathF env home f1 s = expandPathF env home f2 s)
    ∧ (∀ (env : String → Option String) (home : String) (l : List String) {f1 f2 : Nat},
      compsMeasure l + 1 ≤ N → compsMeasure l + 1 ≤ f1 → compsMeasure l + 1 ≤ f2 →
      expandCompsF env home f1 l = expandCompsF env home f2 l) := by
  intro N
  induction N using Nat.strong_induction_on with
  | _ N ih =>
    constructor
    · intro env home s f1 f2 hN h1 h2
      obtain ⟨a, rfl⟩ : ∃ a, f1 = a + 1 := ⟨f1 - 1, by omega⟩
      obtain ⟨b, rfl⟩ : ∃ b, f2 = b + 1 := ⟨f2 - 1, by omega⟩
      simp only [expandPathF]
      have hm := parse_measure s
      have hcomps :
          expandCompsF env home a (__parse_path_components_with_braces s) =
            expandCompsF env home b (__parse_path_components_with_braces s) :=
        (ih (compsMeasure (__parse_path_components_with_braces s) + 1) (by omega)).2
          env home _ (le_refl _) (by omega) (by omega)
      rw [hcomps]
    · intro env home l f1 f2 hN h1 h2
      obtain ⟨a, rfl⟩ : ∃ a, f1 = a + 1 := ⟨f1 - 1, by omega⟩
      obtain ⟨b, rfl⟩ : ∃ b, f2 = b + 1 := ⟨f2 - 1, by omega⟩
      cases l with
      | nil => rfl
      | cons comp rest =>
        have hmc := compsMeasure_cons comp rest
        have hrest : expandCompsF env home a rest = expandCompsF env home b rest :=
          (ih (compsMeasure rest + 1) (by omega)).2 env home rest (le_refl _)
            (by omega) (by omega)
        simp only [expandCompsF]
        cases hcap : anchoredCapture comp.data with
        | none => simp only [hcap, hrest]
        | some nf =>
          obtain ⟨name, fb⟩ := nf
          by_cases hne : name = ""
          · simp [hcap, hne]
          · cases henv : env name with
            | some v => simp only [hcap, hne, if_false, reduceIte, henv, hrest]
            | none =>
              cases hfb : fb with
              | none => simp [hcap, hne, henv, hfb]
              | some f =>
                have hsz : f.data.length + 4 ≤ comp.data.length :=
                  anchoredCapture_fallback_size (by rw [hcap, hfb])
                have hcross : expandPathF env home a f = expandPathF env home b f :=
                  (ih (f.data.length + 4) (by omega)).1 env home f (le_refl _)
                    (by omega) (by omega)
                simp only [hcap, hne, if_false, reduceIte, henv, hfb, hcross, hrest]

theorem pathF_noOOF_all : ∀ N : Nat,
    (∀ (env : String → Option String) (home s : String) {f : Nat},
      s.data.length + 4 ≤ N → s.data.length + 4 ≤ f →
      expandPathF env home f s ≠ .error .OutOfFuel)
    ∧ (∀ (env : String → Option String) (home : String) (l : List String) {f : Nat},
      compsMeasure l + 1 ≤ N → compsMeasure l + 1 ≤ f →
      expandCompsF env home f l ≠ .error .OutOfFuel) := by
  intro N
  induction N using Nat.strong_induction_on with
  | _ N ih =>
    constructor
    · intro env home s f hN h1
      obtain ⟨a, rfl⟩ : ∃ a, f = a + 1 := ⟨f - 1, by omega⟩
      simp only [expandPathF]
      have hm := parse_measure s
      have hcomps :
          expandCompsF env home a (__parse_path_components_with_braces s) ≠
            .error .OutOfFuel :=
        (ih (compsMeasure (__parse_path_components_with_braces s) + 1) (by omega)).2
          env home _ (le_refl _) (by omega)
      cases hres : expandCompsF env home a (__parse_path_components_with_braces s) with
      | error e =>
        rw [hres] at hcomps
        simp only
        intro hcon
        injection hcon with he
        rw [he] at hcomps
        exact hcomps rfl
      | ok comps => simp
    · intro env home l f hN h1
      obtain ⟨a, rfl⟩ : ∃ a, f = a + 1 := ⟨f - 1, by omega⟩
      cases l with
      | nil => simp [expandCompsF]
      | cons comp rest =>
        have hmc := compsMeasure_cons comp rest
        have hrest : expandCompsF env home a rest ≠ .error .OutOfFuel :=
          (ih (compsMeasure rest + 1) (by omega)).2 env home rest (le_refl _) (by omega)
        simp only [expandCompsF]
        have htail : ∀ path : String,
            (match expandCompsF env home a rest with
             | Except.error e => (Except.error e : Except ExpandError (List String))
             | Except.ok tailComps => Except.ok (pathComponents path ++ tailComps)) ≠
              Except.error ExpandError.OutOfFuel := by
          intro path
          cases hres : expandCompsF env home a rest with
          | error e =>
            rw [hres] at hrest
            simp only
            intro hcon
            injection hcon with he
            rw [he] at hrest
            exact hrest rfl
          | ok tailComps => simp
        cases hcap : anchoredCapture comp.data with
        | none => simp only [hcap]; exact htail comp
        | some nf =>
          obtain ⟨name, fb⟩ := nf
          by_cases hne : name = ""
          · simp [hcap, hne]
          · cases henv : env name with
            | some v =>
              simp only [hcap, hne, if_false, reduceIte, henv]
              exact htail v
            | none =>
              cases hfb : fb with
              | none => simp [hcap, hne, henv, hfb]
              | some fs =>
                have hsz : fs.data.length + 4 ≤ comp.data.length :=
                  anchoredCapture_fallback_size (by rw [hcap, hfb])
                have hcross : expandPathF env home a fs ≠ .error .OutOfFuel :=
                  (ih (fs.data.length + 4) (by omega)).1 env home fs (le_refl _) (by omega)
                simp only [hcap, hne, if_false, reduceIte, henv, hfb]
                cases hres : expandPathF env home a fs with
                | error e =>
                  rw [hres] at hcross
                  simp only
                  intro hcon
                  injection hcon with he
                  rw [he] at hcross
                  exact hcross rfl
                | ok v => simp only [hres]; exact htail v

theorem expandPathF_fuel (env : String → Option String) (home s : String) {f : Nat}
    (h : s.data.length + 4 ≤ f) :
    expandPathF env home f s = expand_by_path_components env home s :=
  (pathF_fuel_all (s.data.length + 4)).1 env home s (le_refl _) h (by omega)

theorem expandPath_not_outOfFuel (env : String → Option String) (home s : String) :
    expand_by_path_components env home s ≠ .error .OutOfFuel :=
  (pathF_noOOF_all (s.data.length + 4)).1 env home s (le_refl _) (by omega)

/-! Leading-separator preservation (claim C10). -/

theorem intercalate_go_data (sep : String) :
    ∀ (as : List String) (acc : String),
      ∃ t, (String.intercalate.go acc sep as).data = acc.data ++ t := by
  intro as
  induction as with
  | nil => intro acc; exact ⟨[], by simp [String.intercalate.go]⟩
  | cons a as ih =>
    intro acc
    obtain ⟨t, ht⟩ := ih (acc ++ sep ++ a)
    refine ⟨sep.data ++ a.data ++ t, ?_⟩
    show (String.intercalate.go (acc ++ sep ++ a) sep as).data = _
    rw [ht]
    simp [data_append]

theorem intercalate_cons_head (l : List String) :
    ∃ t, (String.intercalate "/" ("/" :: l)).data = '/' :: t := by
  obtain ⟨t, ht⟩ := intercalate_go_data "/" l "/"
  exact ⟨t, by simpa [String.intercalate] using ht⟩

theorem expandCompsF_cons_slash (env : String → Option String) (home : String)
    (a : Nat) (l : List String) :
    expandCompsF env home (a + 1) ("/" :: l) =
      match expandCompsF env home a l with
      | .error e => .error e
      | .ok t => .ok ("/" :: t) := rfl

theorem applyTilde_slash (home : String) (t : List String) :
    applyTilde home ("/" :: t) = "/" :: t := by
  simp [applyTilde]

theorem path_leading_sep_preserved (env : String → Option String) (home s r : String)
    (hh : s.data.head? = some '/') (hok : expand_by_path_components env home s = .ok r) :
    r.data.head? = some '/' := by
  rcases hd : s.data with _ | ⟨c, cs'⟩
  · rw [hd] at hh; simp at hh
  · rw [hd] at hh
    have hc : c = '/' := by simpa using hh
    subst hc
    have hparse : __parse_path_components_with_braces s = "/" :: parseGo cs' 0 false [] := by
      rw [parse_eq_cons s '/' cs' hd]
      simp
    have hlen : s.data.length = cs'.length + 1 := by rw [hd]; rfl
    have hstep : expand_by_path_components env home s =
        expandPathF env home (cs'.length + 1 + 5) s := by
      unfold expand_by_path_components
      rw [hlen]
    rw [hstep] at hok
    have hunf : expandPathF env home (cs'.length + 1 + 5) s =
        match expandCompsF env home (cs'.length + 5)
            (__parse_path_components_with_braces s) with
        | .error e => .error e
        | .ok comps => .ok (String.intercalate "/" (applyTilde home comps)) := rfl
    rw [hunf, hparse] at hok
    obtain ⟨b, hb⟩ : ∃ b, cs'.length + 5 = b + 1 := ⟨cs'.length + 4, by omega⟩
    rw [hb, expandCompsF_cons_slash] at hok
    cases hres : expandCompsF env home b (parseGo cs' 0 false []) with
    | error e => rw [hres] at hok; simp at hok
    | ok t =>
      rw [hres] at hok
      simp only [applyTilde_slash] at hok
      obtain ⟨u, hu⟩ := intercalate_cons_head t
      have hr : r = String.intercalate "/" ("/" :: t) := by
        injection hok with h'
        exact h'.symm
      rw [hr, hu]
      rfl

/-! The claims. -/

set_option maxRecDepth 8192

/-- C1: for every valid identifier `name` set in the environment to `value`,
`expand` maps `$name` to `value` and `$\x7bname\x7d` to `value`; and with
`FOO=bar`, expanding `x=$\x7bFOO\x7d, y=$FOO, z=$\x7bMISSING:-$FOO\x7d`
yields `x=bar, y=bar, z=bar`. -/
theorem claim_C1_set_variable_expansion :
    (∀ (env : String → Option String) (name value : String),
      validIdent name = true → env name = some value →
      expand env ("$" ++ name) = .ok value ∧
        expand env ("$\x7b" ++ name ++ "\x7d") = .ok value) ∧
      expand envFoo "x=$\x7bFOO\x7d, y=$FOO, z=$\x7bMISSING:-$FOO\x7d" =
        .ok "x=bar, y=bar, z=bar" :=
  ⟨fun _ _ _ hid hv => ⟨expand_dollar_of_set hid hv, expand_braced_of_set hid hv⟩, rfl⟩

/-- C1 witness: the general statement instantiated at `FOO=bar`. -/
theorem claim_C1_set_variable_expansion_witness :
    validIdent "FOO" = true ∧ envFoo "FOO" = some "bar" ∧
      expand envFoo ("$" ++ "FOO") = .ok "bar" ∧
      expand envFoo ("$\x7b" ++ "FOO" ++ "\x7d") = .ok "bar" :=
  ⟨by decide, rfl,
    (claim_C1_set_variable_expansion.1 envFoo "FOO" "bar" (by decide) rfl).1,
    (claim_C1_set_variable_expansion.1 envFoo "FOO" "bar" (by decide) rfl).2⟩

/-- C2 (code evaluation at the failing inputs): with `UNSET` absent,
`expand` of `$\x7bUNSET:-literal\x7d` returns `literal\x7d`, not `literal`:
the unanchored regex's lazy group 3 always captures the empty string, so the
fallback text and the closing brace are left in the output.  The nested
chain likewise leaves the trailing text behind: with `SET=val` it returns
`valX\x7d\x7d\x7d`, and with `SET` unset `X\x7d\x7d\x7d`. -/
theorem claim_C2_fallback_evaluation :
    expand env0 "$\x7bUNSET:-literal\x7d" = .ok "literal\x7d" ∧
      expand envSet "$\x7bUNSET1:-$\x7bUNSET2:-$\x7bSET:-X\x7d\x7d\x7d" =
        .ok "valX\x7d\x7d\x7d" ∧
      expand env0 "$\x7bUNSET1:-$\x7bUNSET2:-$\x7bSET:-X\x7d\x7d\x7d" =
        .ok "X\x7d\x7d\x7d" :=
  ⟨rfl, rfl, rfl⟩

/-- C3: a placeholder naming an absent variable with no fallback fails with
`EnvvarReadError` carrying that name; in nested fallback chains the error
carries the innermost missing variable with no fallback, propagated without
wrapping (shown for `expand` on `$\x7bA:-$B\x7d` and for
`expand_by_path_components` on `$\x7bA:-$\x7bB:-$X\x7d\x7d`). -/
theorem claim_C3_missing_variable_error :
    (∀ (env : String → Option String) (name : String),
      validIdent name = true → env name = none →
      expand env ("$" ++ name) = .error (.EnvvarReadError name)) ∧
      expand env0 "$\x7bA:-$B\x7d" = .error (.EnvvarReadError "B") ∧
      expand_by_path_components env0 home0 "$\x7bA:-$\x7bB:-$X\x7d\x7d" =
        .error (.EnvvarReadError "X") :=
  ⟨fun _ _ hid hv => expand_dollar_of_unset hid hv, rfl, rfl⟩

/-- C3 witness: the general statement instantiated at the unset `MISSING`. -/
theorem claim_C3_missing_variable_error_witness :
    validIdent "MISSING" = true ∧ env0 "MISSING" = none ∧
      expand env0 ("$" ++ "MISSING") = .error (.EnvvarReadError "MISSING") :=
  ⟨by decide, rfl,
    claim_C3_missing_variable_error.1 env0 "MISSING" (by decide) rfl⟩

/-- C4: `expand` is the identity on strings containing no `$`, and hence
idempotent on any already-expanded output containing no `$`. -/
theorem claim_C4_no_dollar_identity :
    (∀ (env : String → Option String) (s : String),
      (∀ c ∈ s.data, c ≠ '$') → expand env s = .ok s) ∧
    (∀ (env : String → Option String) (s t : String),
      expand env s = .ok t → (∀ c ∈ t.data, c ≠ '$') → expand env t = .ok t) :=
  ⟨fun env s h => expand_no_dollar env s h,
    fun env _ t _ h => expand_no_dollar env t h⟩

/-- C4 witness: the identity at a concrete dollar-free string. -/
theorem claim_C4_no_dollar_identity_witness :
    (∀ c ∈ "plain text".data, c ≠ '$') ∧
      expand env0 "plain text" = .ok "plain text" :=
  ⟨by decide, claim_C4_no_dollar_identity.1 env0 "plain text" (by decide)⟩

/-- C5 counterexample: the claim says a `~` anywhere other than the first
component of the overall resolved sequence passes through literally, but a
fallback whose own expansion starts with `~` is tilde-expanded by the
recursive call even in a non-first position: `a/$\x7bU:-~\x7d` resolves to
`a///home/user`, which contains no `~` at all. -/
theorem claim_C5_tilde_counterexample :
    expand_by_path_components env0 home0 "a/$\x7bU:-~\x7d" = .ok "a///home/user" ∧
      '~' ∉ "a///home/user".data :=
  ⟨rfl, by decide⟩

/-- C5 amended: the tilde check runs once per `expand_by_path_components`
call, after that call's components are resolved — so `~/a/b` yields
`home/a/b`, `$\x7bUNSET:-~\x7d/a` yields `home/a`, and a literal `~` in a
non-first component passes through — but because fallback text is expanded
by a recursive call, a `~` that leads the fallback's own expansion is also
replaced even when it is not the first component of the overall sequence. -/
theorem claim_C5_amended_tilde :
    (expand_by_path_components env0 home0 "~/a/b").map pathComponents =
        .ok (pathComponents (home0 ++ "/a/b")) ∧
      (expand_by_path_components env0 home0 "$\x7bUNSET:-~\x7d/a").map pathComponents =
        .ok (pathComponents (home0 ++ "/a")) ∧
      expand_by_path_components env0 home0 "a/~/b" = .ok "a/~/b" ∧
      (expand_by_path_components env0 home0 "a/$\x7bU:-~\x7d").map pathComponents =
        .ok ["a", "home", "user"] :=
  ⟨rfl, rfl, rfl, rfl⟩

/-- C6: in path mode the separator splits only at brace depth 0: `$VAR/sub`
gives a placeholder component and a literal component, while the separator
inside `$\x7bVAR/sub\x7d` does not split. -/
theorem claim_C6_separator_splits_at_depth_zero :
    __parse_path_components_with_braces "$VAR/sub" = ["$VAR", "sub"] ∧
      __parse_path_components_with_braces "$\x7bVAR/sub\x7d" = ["$\x7bVAR/sub\x7d"] :=
  ⟨rfl, rfl⟩

/-- C7 (code evaluation at the failing input): a lone `$` is not rejected
with `EmptyEnvvarCapture` — both expansion functions pass it through
unchanged, because group 1 of the regexes always captures at least one
character when they match at all; moreover `errors.rs` does not even declare
the `EmptyEnvvarCapture` variant that `lib.rs` references. -/
theorem claim_C7_lone_dollar_not_rejected :
    expand env0 "$" = .ok "$" ∧
      expand_by_path_components env0 home0 "$" = .ok "$" :=
  ⟨rfl, rfl⟩

/-- C8 counterexample: backslash is not an escape character — with `FOO=bar`
the placeholder after `\` is still expanded, giving `\bar` rather than the
claimed literal `$FOO`. -/
theorem claim_C8_escape_counterexample :
    expand envFoo "\\$FOO" = .ok "\\bar" ∧
      (Except.ok "\\bar" : Except ExpandError String) ≠ .ok "$FOO" :=
  ⟨rfl, fun h => absurd (Except.ok.inj h) (by decide)⟩

/-- C8 amended: `\` has no special meaning to `expand`: it is copied
literally and placeholder detection proceeds after it, so `\$FOO` expands to
`\` followed by the value of `FOO`, and the lookup of `FOO` does happen —
with `FOO` unset the expansion fails with `EnvvarReadError "FOO"`. -/
theorem claim_C8_amended_no_escape :
    expand envFoo "\\$FOO" = .ok "\\bar" ∧
      expand env0 "\\$FOO" = .error (.EnvvarReadError "FOO") :=
  ⟨rfl, rfl⟩

/-- C9: the recursive fallback expansion terminates on every input: a
captured fallback is strictly shorter than the text it was captured from
(for both regexes), and both entry points compute a fuel-independent result
— above a linear bound the fuel does not matter and the out-of-fuel
artifact never occurs. -/
theorem claim_C9_termination :
    (∀ (cs : List Char) (len : Nat) (name f : String),
      matchAt cs = some (len, name, some f) → f.data.length < cs.length) ∧
    (∀ (cs : List Char) (name f : String),
      anchoredCapture cs = some (name, some f) → f.data.length < cs.length) ∧
    (∀ (env : String → Option String) (s : String) (fuel : Nat),
      s.data.length + 2 ≤ fuel → expandF env fuel s = expand env s) ∧
    (∀ (env : String → Option String) (s : String),
      expand env s ≠ .error .OutOfFuel) ∧
    (∀ (env : String → Option String) (home s : String) (fuel : Nat),
      s.data.length + 4 ≤ fuel →
        expandPathF env home fuel s = expand_by_path_components env home s) ∧
    (∀ (env : String → Option String) (home s : String),
      expand_by_path_components env home s ≠ .error .OutOfFuel) := by
  refine ⟨?_, ?_, ?_, ?_, ?_, ?_⟩
  · intro cs len name f h
    obtain ⟨-, h2, h3⟩ := matchAt_bounds h
    have hf : f = "" := h3 f rfl
    subst hf
    have : ("" : String).data.length = 0 := rfl
    omega
  · intro cs name f h
    have := anchoredCapture_fallback_size h
    omega
  · intro env s fuel h
    exact expandF_fuel env s h
  · intro env s
    exact expand_not_outOfFuel env s
  · intro env home s fuel h
    exact expandPathF_fuel env home s h
  · intro env home s
    exact expandPath_not_outOfFuel env home s

/-- C9 witness: the termination statements instantiated at concrete inputs:
a concrete fallback capture is shorter than its source, and concrete large
fuels give the entry-point results. -/
theorem claim_C9_termination_witness :
    ("" : String).data.length < "$\x7bA:-x\x7d".data.length ∧
      ("x" : String).data.length < "$\x7bA:-x\x7d".data.length ∧
      expandF env0 50 "$A" = expand env0 "$A" ∧
      expandPathF env0 home0 50 "$A" = expand_by_path_components env0 home0 "$A" ∧
      expand env0 "$A" ≠ .error .OutOfFuel ∧
      expand_by_path_components env0 home0 "$A" ≠ .error .OutOfFuel :=
  ⟨claim_C9_termination.1 "$\x7bA:-x\x7d".data 5 "A" "" rfl,
    claim_C9_termination.2.1 "$\x7bA:-x\x7d".data "A" "x" rfl,
    claim_C9_termination.2.2.1 env0 "$A" 50 (by decide),
    claim_C9_termination.2.2.2.2.1 env0 home0 "$A" 50 (by decide),
    claim_C9_termination.2.2.2.1 env0 "$A",
    claim_C9_termination.2.2.2.2.2 env0 home0 "$A"⟩

/-- C10: an input beginning with the separator keeps the leading separator
as the root of the result, and an absolute path with no placeholders
expands to that same absolute path (as a path value, compared by
components); the result is assembled by explicitly joining the components
with the separator. -/
theorem claim_C10_absolute_path_root :
    (∀ (env : String → Option String) (home s r : String),
      s.data.head? = some '/' → expand_by_path_components env home s = .ok r →
      r.data.head? = some '/') ∧
      (expand_by_path_components env0 home0 "/home/user/path/to/file").map pathComponents =
        .ok (pathComponents "/home/user/path/to/file") :=
  ⟨path_leading_sep_preserved, rfl⟩

/-- C10 witness: the root-preservation statement at a concrete absolute
input. -/
theorem claim_C10_absolute_path_root_witness :
    "/a".data.head? = some '/' ∧
      expand_by_path_components env0 home0 "/a" = .ok "//a" ∧
      "//a".data.head? = some '/' :=
  ⟨rfl, rfl, claim_C10_absolute_path_root.1 env0 home0 "/a" "//a" rfl rfl⟩

end Expandenv
